import Mathlib

/-! Shallow embedding of the nimble binary codec (`src/nimble/src`).  Byte
    streams are modelled as `List Nat` of byte values, machine integers as
    `Nat` two's-complement bit patterns with explicit `% 2 ^ w` truncation,
    and the asynchronous reader/writer pair as a pure byte-list state:
    encoding returns the written bytes, decoding consumes a byte-list and
    returns the value together with the unread remainder. -/

namespace Nimble

/-- Endianness of encoded bytes (`src/nimble/src/config.rs`). -/
inductive Endianness where
  | littleEndian
  | bigEndian
deriving DecidableEq

/-- Encoding/decoding configuration (`src/nimble/src/config.rs`): only the
    endianness. -/
structure Config where
  endianness : Endianness
deriving DecidableEq

/-- Error taxonomy.  Variants `ioError` through `partiallyFilledArray` follow
    `src/nimble/src/error.rs`.  Modelled from the spec: `nonZeroError` and
    `intConversionError` — `decode.rs` returns `Error::NonZeroError` and
    `varint.rs` propagates integer-conversion failures, but the revision of
    `error.rs` present in `src/` predates both variants; spec §7 lists them.
    Payloads of `ioError` (the transport fault) and `invalidUtf8String` are
    not modelled; the only IO fault a list stream produces is end-of-stream. -/
inductive Error where
  | ioError
  | invalidChar (code : Nat)
  | invalidEnumVariant (tag : Nat)
  | invalidLength (len : Nat)
  | invalidUtf8String
  | partiallyFilledArray
  | nonZeroError
  | intConversionError
deriving DecidableEq

/-- Little-endian byte list of the low `w` bytes of `n` (`to_le_bytes`). -/
def toLEBytes : Nat → Nat → List Nat
  | 0, _ => []
  | w + 1, n => n % 256 :: toLEBytes w (n / 256)

/-- Numeric value of a little-endian byte list (`from_le_bytes`). -/
def fromLEBytes (bytes : List Nat) : Nat :=
  bytes.foldr (fun b acc => b + 256 * acc) 0

/-- Bytes of a fixed-width integer (`w` bytes wide) in the configured
    endianness (`encode.rs`, `impl_primitive`: `to_le_bytes`/`to_be_bytes`;
    big-endian is the reverse of little-endian). -/
def uintBytes (config : Config) (w n : Nat) : List Nat :=
  match config.endianness with
  | .littleEndian => toLEBytes w n
  | .bigEndian => (toLEBytes w n).reverse

/-- Model of `read_exact` on a list stream: yields `w` bytes and the rest, or
    fails with an IO error (unexpected EOF) when the stream is shorter. -/
def readExact (w : Nat) (s : List Nat) : Except Error (List Nat × List Nat) :=
  if s.length < w then .error .ioError else .ok (s.take w, s.drop w)

/-- Fixed-width integer decoding (`decode.rs`, `impl_primitive`): `read_exact`
    into a `w`-byte buffer, then `from_le_bytes`/`from_be_bytes` per the
    configured endianness. -/
def decodeUInt (config : Config) (w : Nat) (s : List Nat) :
    Except Error (Nat × List Nat) := do
  let (bytes, rest) ← readExact w s
  match config.endianness with
  | .littleEndian => .ok (fromLEBytes bytes, rest)
  | .bigEndian => .ok (fromLEBytes bytes.reverse, rest)

/-- Loop of `VarInt::size` (`src/nimble/src/varint.rs`):
    `while num > 0 { counter += 1; num >>= 7 }`. -/
def varIntSizeLoop (n : Nat) : Nat :=
  if h : n = 0 then 0 else 1 + varIntSizeLoop (n >>> 7)
termination_by n
decreasing_by
  rw [Nat.shiftRight_eq_div_pow]
  exact Nat.div_lt_self (Nat.pos_of_ne_zero h) (by norm_num)

/-- `VarInt::size` (`src/nimble/src/varint.rs`): 1 for a zero magnitude,
    otherwise the number of non-zero base-128 digit groups. -/
def varIntSize (n : Nat) : Nat :=
  if n = 0 then 1 else varIntSizeLoop n

/-- `VarInt::encode_to` (`src/nimble/src/varint.rs`): while the magnitude is
    at least `0b1000_0000`, emit `(num & 0b0111_1111) | 0b1000_0000` and shift
    right by 7; finally emit the remaining (< 128) magnitude as-is.  Single
    bytes are endianness-independent, so the `Config` argument of the source
    is dropped.  Returns the written bytes (writing to an in-memory buffer
    cannot fail). -/
def varIntEncode (n : Nat) : List Nat :=
  if h : 128 ≤ n then ((n &&& 127) ||| 128) :: varIntEncode (n >>> 7)
  else [n]
termination_by n
decreasing_by
  rw [Nat.shiftRight_eq_div_pow]
  exact Nat.div_lt_self (by omega) (by norm_num)

/-- Loop of `VarInt::decode_from` (`src/nimble/src/varint.rs`): read a byte,
    OR its low 7 bits shifted by the accumulated shift into the accumulator,
    and continue while the high bit is set.  The source has no shift guard:
    `shift_by` is a `u8` incremented by 7 each round.  Release-profile Rust
    semantics are modelled: the `u8` counter wraps modulo 256, the `u128`
    shift amount is masked modulo 128, and `u128` shift-left truncates to the
    low 128 bits. -/
def varIntDecodeLoop : Nat → Nat → List Nat → Except Error (Nat × List Nat)
  | _, _, [] => .error .ioError
  | num, shiftBy, b :: rest =>
    let num' := num ||| (((b &&& 127) <<< (shiftBy % 128)) % 2 ^ 128)
    if b &&& 128 ≠ 0 then varIntDecodeLoop num' ((shiftBy + 7) % 256) rest
    else .ok (num', rest)

/-- `VarInt::decode_from` (`src/nimble/src/varint.rs`), starting from a zero
    accumulator and zero shift. -/
def varIntDecode (s : List Nat) : Except Error (Nat × List Nat) :=
  varIntDecodeLoop 0 0 s

/-- `ZigZag::encode_zigzag` (`src/nimble/src/varint.rs`, `impl_zigzag`):
    `((self << 1) ^ (self >> (bits - 1))) as Output` on a `w`-bit signed
    value represented by its two's-complement bit pattern `x < 2 ^ w`.
    `self << 1` keeps the low `w` bits, and `self >> (w - 1)` is the
    sign-filling arithmetic shift: all-zeros for non-negative values
    (pattern below `2 ^ (w - 1)`), all-ones otherwise. -/
def encodeZigzag (w x : Nat) : Nat :=
  ((2 * x) % 2 ^ w) ^^^ (if x < 2 ^ (w - 1) then 0 else 2 ^ w - 1)

/-- `ZigZag::decode_zigzag` (`src/nimble/src/varint.rs`, `impl_zigzag`):
    `((encoded >> 1) ^ (-(encoded as Self & 1)) as Output) as Self`.
    The right shift on the unsigned input is logical; negating the low bit
    in the signed type gives bit pattern all-ones (for 1) or all-zeros. -/
def decodeZigzag (w u : Nat) : Nat :=
  (u >>> 1) ^^^ (if u &&& 1 = 1 then 2 ^ w - 1 else 0)

/-- Universe of wire types whose `Encode` and `Decode` implementations are
    both present in `src/nimble/src/{encode,decode}.rs`: `uint w` is a
    fixed-width numeric of `w` bytes (covering `u8`…`u128`, the signed and
    float widths as bit patterns, and `usize`/`isize`), `list` covers the
    length-prefixed sequence containers of `impl_seq` (`Vec` being the
    representative), `array n` the fixed arrays, `map` the `impl_map`
    containers (represented by their entry sequence in iteration order),
    `pair` the two-component tuple, and `varint` the `VarInt` wrapper. -/
inductive Ty where
  | uint (w : Nat)
  | bool
  | char
  | option (t : Ty)
  | result (t e : Ty)
  | pair (a b : Ty)
  | list (t : Ty)
  | array (n : Nat) (t : Ty)
  | map (k v : Ty)
  | varint

/-- Model values of each wire type.  Fixed-width integers, char code points
    and VarInt magnitudes are `Nat` bit patterns (bounded by `wf` below);
    `Rust Result` is a sum, maps are entry lists. -/
@[reducible]
def Value : Ty → Type
  | .uint _ => Nat
  | .bool => Bool
  | .char => Nat
  | .option t => Option (Value t)
  | .result t e => Value t ⊕ Value e
  | .pair a b => Value a × Value b
  | .list t => List (Value t)
  | .array _ t => List (Value t)
  | .map k v => List (Value k × Value v)
  | .varint => Nat

/-- Validity test of `core::char::from_u32` (used by `decode.rs`, `impl
    Decode for char`): a code point is rejected above `char::MAX` or inside
    the surrogate range `0xD800..=0xDFFF`. -/
def charFromU32 (code : Nat) : Bool :=
  !(decide (code > 0x10FFFF) || (decide (0xD800 ≤ code) && decide (code ≤ 0xDFFF)))

/-- Machine representability of a model value: integer patterns fit their
    width, char codes are valid scalar values, container lengths fit both a
    `u64` (the wire length) and the platform index type of `ub` bits
    (`usize`), and components are recursively representable. -/
def wf (ub : Nat) : (t : Ty) → Value t → Bool
  | .uint w => fun n => decide (n < 2 ^ (8 * w))
  | .bool => fun _ => true
  | .char => fun c => charFromU32 c
  | .option t => fun v =>
    match v with
    | none => true
    | some x => wf ub t x
  | .result t e => fun v =>
    match v with
    | .inl x => wf ub t x
    | .inr y => wf ub e y
  | .pair a b => fun v => wf ub a v.1 && wf ub b v.2
  | .list t => fun l =>
    decide (l.length < 2 ^ 64) && decide (l.length < 2 ^ ub) &&
      l.all (fun x => wf ub t x)
  | .array n t => fun l => decide (l.length = n) && l.all (fun x => wf ub t x)
  | .map k v => fun l =>
    decide (l.length < 2 ^ 64) && decide (l.length < 2 ^ ub) &&
      l.all (fun e => wf ub k e.1 && wf ub v e.2)
  | .varint => fun n => decide (n < 2 ^ 128)

/-- `Encode::size` over the universe (`src/nimble/src/encode.rs`): native
    width for fixed-width numerics, one byte for `bool`, four for `char`,
    one discriminant byte plus payload for `Option`/`Result`, component sums
    for tuples, `size_of::<u64>()` plus element sizes for the
    length-prefixed containers, plain element sums for fixed arrays, and
    `VarInt::size` for `VarInt`. -/
def size : (t : Ty) → Value t → Nat
  | .uint w => fun _ => w
  | .bool => fun _ => 1
  | .char => fun _ => 4
  | .option t => fun v =>
    match v with
    | none => 1
    | some x => 1 + size t x
  | .result t e => fun v =>
    match v with
    | .inl x => 1 + size t x
    | .inr y => 1 + size e y
  | .pair a b => fun v => size a v.1 + size b v.2
  | .list t => fun l => 8 + (l.map (fun x => size t x)).sum
  | .array _ t => fun l => (l.map (fun x => size t x)).sum
  | .map k v => fun l => 8 + (l.map (fun e => size k e.1 + size v e.2)).sum
  | .varint => fun n => varIntSize n

/-- `Encode::encode_to` over the universe (`src/nimble/src/encode.rs`),
    returning the bytes written to the in-memory writer: fixed-width
    numerics in configured endianness, `bool`/`char` through the
    `u8`/`u32` paths, `Option`/`Result` as one discriminant byte plus
    payload, tuples as concatenation, sequence and map containers as the
    `u64` length (`self.len() as u64`, truncating modulo `2 ^ 64`) followed
    by each element in iteration order, fixed arrays with no length, and
    `VarInt` by base-128 groups. -/
def encodeTo (config : Config) : (t : Ty) → Value t → List Nat
  | .uint w => fun n => uintBytes config w n
  | .bool => fun b => uintBytes config 1 (if b then 1 else 0)
  | .char => fun c => uintBytes config 4 c
  | .option t => fun v =>
    match v with
    | none => uintBytes config 1 0
    | some x => uintBytes config 1 1 ++ encodeTo config t x
  | .result t e => fun v =>
    match v with
    | .inl x => uintBytes config 1 0 ++ encodeTo config t x
    | .inr y => uintBytes config 1 1 ++ encodeTo config e y
  | .pair a b => fun v => encodeTo config a v.1 ++ encodeTo config b v.2
  | .list t => fun l =>
    uintBytes config 8 l.length ++ (l.map (fun x => encodeTo config t x)).flatten
  | .array _ t => fun l => (l.map (fun x => encodeTo config t x)).flatten
  | .map k v => fun l =>
    uintBytes config 8 l.length ++
      (l.map (fun e => encodeTo config k e.1 ++ encodeTo config v e.2)).flatten
  | .varint => fun n => varIntEncode n

/-- Element-decoding loop (the `for _ in 0..len` loops of `impl_seq`,
    `impl_map` and `impl_fixed_arr` in `decode.rs`): run the element decoder
    `count` times, threading the stream, collecting values in order. -/
def decodeMany {α : Type} (dec : List Nat → Except Error (α × List Nat)) :
    Nat → List Nat → Except Error (List α × List Nat)
  | 0, s => .ok ([], s)
  | n + 1, s => do
    let (x, s₁) ← dec s
    let (xs, s₂) ← decodeMany dec n s₁
    .ok (x :: xs, s₂)

/-- `Decode::decode_from` over the universe (`src/nimble/src/decode.rs`).
    `ub` is the bit width of the platform index type `usize`: the
    `usize::try_from` conversion on a decoded `u64` container length
    succeeds exactly when the length is below `2 ^ ub`, and otherwise fails
    into `InvalidLength` before any element is decoded.  A fixed array is
    filled element by element and `into_inner` yields
    `PartiallyFilledArray` unless exactly `n` elements were pushed.  Map
    insertion is modelled as appending to the entry list. -/
def decodeFrom (ub : Nat) (config : Config) :
    (t : Ty) → List Nat → Except Error (Value t × List Nat)
  | .uint w => fun s => decodeUInt config w s
  | .bool => fun s => do
    let (n, rest) ← decodeUInt config 1 s
    .ok (n != 0, rest)
  | .char => fun s => do
    let (code, rest) ← decodeUInt config 4 s
    if charFromU32 code then .ok (code, rest) else .error (.invalidChar code)
  | .option t => fun s => do
    let (tag, s₁) ← decodeUInt config 1 s
    match tag with
    | 0 => .ok (none, s₁)
    | 1 => do
      let (x, s₂) ← decodeFrom ub config t s₁
      .ok (some x, s₂)
    | _ => .error (.invalidEnumVariant tag)
  | .result t e => fun s => do
    let (tag, s₁) ← decodeUInt config 1 s
    match tag with
    | 0 => do
      let (x, s₂) ← decodeFrom ub config t s₁
      .ok (.inl x, s₂)
    | 1 => do
      let (y, s₂) ← decodeFrom ub config e s₁
      .ok (.inr y, s₂)
    | _ => .error (.invalidEnumVariant tag)
  | .pair a b => fun s => do
    let (x, s₁) ← decodeFrom ub config a s
    let (y, s₂) ← decodeFrom ub config b s₁
    .ok ((x, y), s₂)
  | .list t => fun s => do
    let (len, s₁) ← decodeUInt config 8 s
    if len < 2 ^ ub then do
      let (xs, s₂) ← decodeMany (fun s => decodeFrom ub config t s) len s₁
      .ok (xs, s₂)
    else .error (.invalidLength len)
  | .array n t => fun s => do
    let (xs, s₁) ← decodeMany (fun s => decodeFrom ub config t s) n s
    if xs.length = n then .ok (xs, s₁) else .error .partiallyFilledArray
  | .map k v => fun s => do
    let (len, s₁) ← decodeUInt config 8 s
    if len < 2 ^ ub then do
      let (entries, s₂) ← decodeMany
        (fun s => do
          let (a, s₁) ← decodeFrom ub config k s
          let (b, s₂) ← decodeFrom ub config v s₁
          .ok ((a, b), s₂)) len s₁
      .ok (entries, s₂)
    else .error (.invalidLength len)
  | .varint => fun s => varIntDecode s

/-- Decode of the non-zero-constrained integers (`decode.rs`,
    `impl_non_zero_primitives`, `NonZeroU8` … `NonZeroIsize` with underlying
    width `w` bytes): decode the underlying integer and reject a zero value
    with `NonZeroError` (`Self::new(..).ok_or_else(|| Error::NonZeroError)`).
    The `encode.rs` revision in `src/` has no matching `Encode` impl, so
    only the decode side is embedded. -/
def nonZeroDecodeFrom (config : Config) (w : Nat) (s : List Nat) :
    Except Error (Nat × List Nat) := do
  let (n, rest) ← decodeUInt config w s
  if n = 0 then .error .nonZeroError else .ok (n, rest)

/-! Helper lemmas about the byte-level primitives. -/

theorem ok_bind {α β : Type} (a : α) (f : α → Except Error β) :
    (Except.ok a : Except Error α) >>= f = f a := rfl

theorem error_bind {α β : Type} (e : Error) (f : α → Except Error β) :
    (Except.error e : Except Error α) >>= f = Except.error e := rfl

theorem fromLEBytes_nil : fromLEBytes [] = 0 := rfl

theorem fromLEBytes_cons (b : Nat) (bs : List Nat) :
    fromLEBytes (b :: bs) = b + 256 * fromLEBytes bs := rfl

theorem toLEBytes_length (w : Nat) : ∀ n, (toLEBytes w n).length = w := by
  induction w with
  | zero => intro n; rfl
  | succ w ih => intro n; simp [toLEBytes, ih]

theorem fromLEBytes_toLEBytes (w : Nat) :
    ∀ n, n < 2 ^ (8 * w) → fromLEBytes (toLEBytes w n) = n := by
  induction w with
  | zero =>
    intro n h
    have : n = 0 := by simpa using h
    subst this
    rfl
  | succ w ih =>
    intro n h
    have hpow : 2 ^ (8 * (w + 1)) = 2 ^ (8 * w) * 256 := by
      rw [Nat.mul_succ, Nat.pow_add]
    have h' : n / 256 < 2 ^ (8 * w) := by
      rw [hpow] at h
      omega
    rw [toLEBytes, fromLEBytes_cons, ih _ h']
    omega

theorem uintBytes_length (config : Config) (w n : Nat) :
    (uintBytes config w n).length = w := by
  cases config with
  | mk e => cases e <;> simp [uintBytes, toLEBytes_length]

theorem readExact_append {w : Nat} {bs rest : List Nat} (h : bs.length = w) :
    readExact w (bs ++ rest) = .ok (bs, rest) := by
  subst h
  rw [readExact, if_neg (by simp), List.take_left, List.drop_left]

theorem decodeUInt_uintBytes (config : Config) {w n : Nat} (rest : List Nat)
    (h : n < 2 ^ (8 * w)) :
    decodeUInt config w (uintBytes config w n ++ rest) = .ok (n, rest) := by
  cases config with
  | mk e =>
    cases e
    · have hre : readExact w (toLEBytes w n ++ rest) = .ok (toLEBytes w n, rest) :=
        readExact_append (toLEBytes_length w n)
      simp [decodeUInt, uintBytes, hre, ok_bind, fromLEBytes_toLEBytes w n h]
    · have hre : readExact w ((toLEBytes w n).reverse ++ rest) =
          .ok ((toLEBytes w n).reverse, rest) :=
        readExact_append (by simp [toLEBytes_length])
      simp [decodeUInt, uintBytes, hre, ok_bind, fromLEBytes_toLEBytes w n h]

theorem decodeUInt_cons (config : Config) (b : Nat) (rest : List Nat) :
    decodeUInt config 1 (b :: rest) = .ok (b, rest) := by
  have h1 : readExact 1 (b :: rest) = .ok ([b], rest) :=
    @readExact_append 1 [b] rest rfl
  cases config with
  | mk e =>
    cases e <;> simp [decodeUInt, h1, ok_bind, fromLEBytes_cons, fromLEBytes_nil]

/-! Helper lemmas about bit operations. -/

theorem lor_mul_pow_eq_add {a s : Nat} (b : Nat) (h : a < 2 ^ s) :
    a ||| b * 2 ^ s = a + b * 2 ^ s := by
  apply Nat.eq_of_testBit_eq
  intro i
  have hadd : a + b * 2 ^ s = 2 ^ s * b + a := by ring
  rw [hadd, Nat.testBit_mul_pow_two_add b h i, Nat.testBit_or]
  have hmul : (b * 2 ^ s).testBit i = if i < s then false else b.testBit (i - s) := by
    have h0 : b * 2 ^ s = 2 ^ s * b + 0 := by ring
    rw [h0, Nat.testBit_mul_pow_two_add b (Nat.pos_pow_of_pos s (by norm_num)) i]
    simp [Nat.zero_testBit]
  by_cases hi : i < s
  · simp [hi, hmul]
  · have : a.testBit i = false :=
      Nat.testBit_lt_two_pow
        (lt_of_lt_of_le h (Nat.pow_le_pow_right (by norm_num) (Nat.le_of_not_lt hi)))
    simp [hi, hmul, this]

theorem and_127_eq_mod (n : Nat) : n &&& 127 = n % 128 := by
  have h127 : (127 : Nat) = 2 ^ 7 - 1 := by norm_num
  have h128 : (128 : Nat) = 2 ^ 7 := by norm_num
  rw [h127, h128, Nat.and_pow_two_sub_one_eq_mod]

theorem and_128_eq_zero {n : Nat} (h : n < 128) : n &&& 128 = 0 := by
  apply Nat.eq_of_testBit_eq
  intro i
  rw [Nat.testBit_and, Nat.zero_testBit]
  by_cases hi : i = 7
  · subst hi
    rw [Nat.testBit_lt_two_pow (show n < 2 ^ 7 by simpa using h)]
    rfl
  · have : (128 : Nat).testBit i = false := by
      have h2 : (128 : Nat) = 2 ^ 7 := by norm_num
      rw [h2, Nat.testBit_two_pow]
      simpa using fun h => (hi h.symm).elim
    simp [this]

theorem lor_128_and_128_ne_zero (a : Nat) : (a ||| 128) &&& 128 ≠ 0 := by
  intro h0
  have : ((a ||| 128) &&& 128).testBit 7 = false := by rw [h0]; exact Nat.zero_testBit 7
  rw [Nat.testBit_and, Nat.testBit_or] at this
  simp [show (128 : Nat).testBit 7 = true by decide] at this

theorem xor_all_ones {w : Nat} : ∀ {v : Nat}, v < 2 ^ w → v ^^^ (2 ^ w - 1) = 2 ^ w - 1 - v := by
  induction w with
  | zero =>
    intro v h
    have : v = 0 := by simpa using h
    subst this
    rfl
  | succ w ih =>
    intro v h
    have hpow : 2 ^ (w + 1) = 2 * 2 ^ w := by rw [Nat.pow_succ]; ring
    have hv2 : v / 2 < 2 ^ w := by omega
    have hbit : Nat.bit true (2 ^ w - 1) = 2 ^ (w + 1) - 1 := by
      rw [Nat.bit_val]
      simp only [Bool.toNat_true]
      omega
    have hvbit : Nat.bit (v.testBit 0) (v / 2) = v := by
      have h2 := Nat.bit_testBit_zero_shiftRight_one v
      rwa [Nat.shiftRight_one] at h2
    have htb : v.testBit 0 = decide (v % 2 = 1) := by
      simp [Nat.testBit_to_div_mod]
    calc v ^^^ (2 ^ (w + 1) - 1)
        = Nat.bit (v.testBit 0) (v / 2) ^^^ Nat.bit true (2 ^ w - 1) := by
          rw [hvbit, hbit]
      _ = Nat.bit (bne (v.testBit 0) true) (v / 2 ^^^ (2 ^ w - 1)) :=
          Nat.xor_bit _ _ _ _
      _ = Nat.bit (bne (v.testBit 0) true) (2 ^ w - 1 - v / 2) := by rw [ih hv2]
      _ = 2 ^ (w + 1) - 1 - v := by
          rw [Nat.bit_val, htb]
          by_cases hp : v % 2 = 1 <;> simp [hp] <;> omega

/-! Helper lemmas about VarInt. -/

theorem varIntEncode_ne_nil (n : Nat) : varIntEncode n ≠ [] := by
  rw [varIntEncode]
  split <;> simp

theorem varIntEncode_length (n : Nat) : (varIntEncode n).length = varIntSize n := by
  induction n using Nat.strong_induction_on with
  | _ n ih =>
    rw [varIntEncode, varIntSize]
    by_cases h0 : n = 0
    · subst h0
      norm_num
    · rw [if_neg h0]
      by_cases h1 : 128 ≤ n
      · have hlt : n >>> 7 < n := by
          rw [Nat.shiftRight_eq_div_pow]
          exact Nat.div_lt_self (by omega) (by norm_num)
        have hne : n >>> 7 ≠ 0 := by
          rw [Nat.shiftRight_eq_div_pow]
          norm_num
          omega
        rw [dif_pos h1, varIntSizeLoop, dif_neg h0]
        simp only [List.length_cons]
        rw [ih _ hlt, varIntSize, if_neg hne]
        omega
      · have hz : n >>> 7 = 0 := by
          rw [Nat.shiftRight_eq_div_pow]
          norm_num
          omega
        rw [dif_neg h1, varIntSizeLoop, dif_neg h0, hz, varIntSizeLoop]
        simp

theorem varIntDecodeLoop_continuation :
    ∀ (s : List Nat) (acc shift : Nat), (∀ b ∈ s, b &&& 128 ≠ 0) →
      varIntDecodeLoop acc shift s = .error .ioError := by
  intro s
  induction s with
  | nil => intro acc shift _; rfl
  | cons b rest ih =>
    intro acc shift h
    rw [varIntDecodeLoop]
    rw [if_pos (h b (by simp))]
    exact ih _ _ fun x hx => h x (by simp [hx])

theorem byte_and_127 (n : Nat) : ((n &&& 127) ||| 128) &&& 127 = n % 128 := by
  rw [Nat.and_distrib_right, show (128 : Nat) &&& 127 = 0 by decide, Nat.or_zero,
    Nat.and_assoc, show (127 : Nat) &&& 127 = 127 by decide, and_127_eq_mod]

theorem varIntDecodeLoop_encode :
    ∀ n s acc (rest : List Nat), s < 128 → n < 2 ^ (128 - s) → acc < 2 ^ s →
      varIntDecodeLoop acc s (varIntEncode n ++ rest) = .ok (acc + n * 2 ^ s, rest) := by
  intro n
  induction n using Nat.strong_induction_on with
  | _ n ih =>
    intro s acc rest hs hn hacc
    have hss : 2 ^ (128 - s) * 2 ^ s = 2 ^ 128 := by
      rw [← Nat.pow_add]
      congr 1
      omega
    rw [varIntEncode]
    by_cases h1 : 128 ≤ n
    · -- continuation byte followed by the encoding of the remaining groups
      have hs7 : s ≤ 120 := by
        by_contra hcon
        have : 2 ^ (128 - s) ≤ 2 ^ 7 := Nat.pow_le_pow_right (by norm_num) (by omega)
        omega
      rw [dif_pos h1]
      simp only [List.cons_append]
      rw [varIntDecodeLoop]
      rw [if_pos (lor_128_and_128_ne_zero _)]
      have hmod : s % 128 = s := Nat.mod_eq_of_lt hs
      have hsh : ((((n &&& 127) ||| 128) &&& 127) <<< (s % 128)) % 2 ^ 128 =
          (n % 128) * 2 ^ s := by
        rw [byte_and_127, hmod, Nat.shiftLeft_eq]
        apply Nat.mod_eq_of_lt
        calc n % 128 * 2 ^ s < 128 * 2 ^ s := by
              have hm := @Nat.mod_lt n 128 (by norm_num)
              exact (Nat.mul_lt_mul_right (Nat.pos_pow_of_pos s (by norm_num))).mpr hm
          _ = 2 ^ (s + 7) := by rw [Nat.pow_add]; ring
          _ ≤ 2 ^ 128 := Nat.pow_le_pow_right (by norm_num) (by omega)
      rw [hsh, lor_mul_pow_eq_add _ hacc]
      have hmod7 : (s + 7) % 256 = s + 7 := Nat.mod_eq_of_lt (by omega)
      rw [hmod7]
      have hlt : n >>> 7 < n := by
        rw [Nat.shiftRight_eq_div_pow]
        exact Nat.div_lt_self (by omega) (by norm_num)
      have hrec := ih (n >>> 7) hlt (s + 7) (acc + n % 128 * 2 ^ s) rest
        (by omega)
        (by
          rw [Nat.shiftRight_eq_div_pow]
          have h2 : 2 ^ (128 - s) = 2 ^ (128 - (s + 7)) * 2 ^ 7 := by
            rw [← Nat.pow_add]
            congr 1
            omega
          rw [h2] at hn
          have := @Nat.div_lt_iff_lt_mul (2 ^ 7) n (2 ^ (128 - (s + 7))) (by norm_num)
          omega)
        (by
          have hp : 2 ^ (s + 7) = 128 * 2 ^ s := by rw [Nat.pow_add]; ring
          have := @Nat.mod_lt n 128 (by norm_num)
          have h128 : n % 128 * 2 ^ s ≤ 127 * 2 ^ s :=
            Nat.mul_le_mul_right _ (by omega)
          have hps : 0 < 2 ^ s := Nat.pos_pow_of_pos s (by norm_num)
          omega)
      rw [hrec]
      have hdm : n = 128 * (n >>> 7) + n % 128 := by
        rw [Nat.shiftRight_eq_div_pow]
        norm_num
        omega
      have hp7 : 2 ^ (s + 7) = 2 ^ s * 128 := by rw [Nat.pow_add]
      have harith : acc + n % 128 * 2 ^ s + n >>> 7 * 2 ^ (s + 7) = acc + n * 2 ^ s := by
        rw [hp7]
        conv_rhs => rw [hdm]
        ring
      rw [harith]
    · -- final byte: the remaining magnitude is below 128
      rw [dif_neg h1]
      simp only [List.cons_append, List.nil_append]
      rw [varIntDecodeLoop]
      have hand : n &&& 128 = 0 := and_128_eq_zero (by omega)
      rw [if_neg (by simp [hand])]
      have hmod : s % 128 = s := Nat.mod_eq_of_lt hs
      have h127 : n &&& 127 = n := by
        rw [and_127_eq_mod]
        omega
      have hlt128 : n * 2 ^ s < 2 ^ 128 := by
        have := (Nat.mul_lt_mul_right (Nat.pos_pow_of_pos s (show 0 < 2 by norm_num))).mpr hn
        omega
      rw [h127, hmod, Nat.shiftLeft_eq, Nat.mod_eq_of_lt hlt128,
        lor_mul_pow_eq_add _ hacc]

/-- Round trip of the standalone VarInt codec. -/
theorem varIntDecode_encode (n : Nat) (rest : List Nat) (h : n < 2 ^ 128) :
    varIntDecode (varIntEncode n ++ rest) = .ok (n, rest) := by
  have := varIntDecodeLoop_encode n 0 0 rest (by norm_num)
    (by simpa using h) (by norm_num)
  simpa [varIntDecode] using this

/-! Helper lemmas about ZigZag. -/

theorem zigzag_roundtrip (w x : Nat) (hw : 1 ≤ w) (hx : x < 2 ^ w) :
    decodeZigzag w (encodeZigzag w x) = x ∧ encodeZigzag w x < 2 ^ w := by
  have hsplit : 2 ^ w = 2 * 2 ^ (w - 1) := by
    conv_lhs => rw [show w = w - 1 + 1 by omega]
    rw [Nat.pow_succ]
    ring
  by_cases hc : x < 2 ^ (w - 1)
  · have henc : encodeZigzag w x = 2 * x := by
      rw [encodeZigzag, if_pos hc, Nat.xor_zero, Nat.mod_eq_of_lt (by omega)]
    refine ⟨?_, by rw [henc]; omega⟩
    rw [henc, decodeZigzag, Nat.and_one_is_mod]
    rw [if_neg (by omega), Nat.xor_zero, Nat.shiftRight_one]
    omega
  · have h2x : 2 ^ w ≤ 2 * x := by omega
    have hmod : 2 * x % 2 ^ w = 2 * x - 2 ^ w := by
      rw [Nat.mod_eq_sub_mod h2x]
      exact Nat.mod_eq_of_lt (by omega)
    have hv : 2 * x - 2 ^ w < 2 ^ w := by omega
    have henc : encodeZigzag w x = 2 ^ w - 1 - (2 * x - 2 ^ w) := by
      rw [encodeZigzag, if_neg hc, hmod, xor_all_ones hv]
    refine ⟨?_, by rw [henc]; omega⟩
    rw [henc, decodeZigzag, Nat.and_one_is_mod]
    rw [if_pos (by omega), Nat.shiftRight_one]
    rw [xor_all_ones (show (2 ^ w - 1 - (2 * x - 2 ^ w)) / 2 < 2 ^ w by omega)]
    omega

/-! Helper lemmas about the universe codec. -/

theorem uintBytes_one (config : Config) (b : Nat) :
    uintBytes config 1 b = [b % 256] := by
  cases config with
  | mk e => cases e <;> simp [uintBytes, toLEBytes]

theorem flatten_length_sum {α : Type} (f : α → List Nat) (g : α → Nat)
    (h : ∀ x, (f x).length = g x) :
    ∀ l : List α, ((l.map f).flatten).length = (l.map g).sum := by
  intro l
  induction l with
  | nil => rfl
  | cons x xs ih => simp [h, ih]

/-- Byte count agreement over the whole universe: the bytes written by
    `encode_to` are exactly `size` many, for every value and `Config`. -/
theorem encodeTo_length (t : Ty) :
    ∀ (config : Config) (v : Value t), (encodeTo config t v).length = size t v := by
  induction t with
  | uint w => intro config v; simp [encodeTo, size, uintBytes_length]
  | bool => intro config v; simp [encodeTo, size, uintBytes_length]
  | char => intro config v; simp [encodeTo, size, uintBytes_length]
  | option t ih =>
    intro config v
    cases v with
    | none => simp [encodeTo, size, uintBytes_length]
    | some x => simp [encodeTo, size, uintBytes_length, ih]
  | result t e iht ihe =>
    intro config v
    cases v with
    | inl x => simp [encodeTo, size, uintBytes_length, iht]
    | inr y => simp [encodeTo, size, uintBytes_length, ihe]
  | pair a b iha ihb =>
    intro config v
    obtain ⟨x, y⟩ := v
    simp [encodeTo, size, iha, ihb]
  | list t ih =>
    intro config l
    simp [encodeTo, size, uintBytes_length,
      flatten_length_sum (fun x => encodeTo config t x) (fun x => size t x)
        (fun x => ih config x) l]
  | array n t ih =>
    intro config l
    simp [encodeTo, size,
      flatten_length_sum (fun x => encodeTo config t x) (fun x => size t x)
        (fun x => ih config x) l]
  | map k v ihk ihv =>
    intro config l
    simp [encodeTo, size, uintBytes_length,
      flatten_length_sum (fun e => encodeTo config k e.1 ++ encodeTo config v e.2)
        (fun e => size k e.1 + size v e.2)
        (fun e => by simp [ihk, ihv]) l]
  | varint => intro config n; simp [encodeTo, size, varIntEncode_length]

theorem decodeMany_append {α : Type} (dec : List Nat → Except Error (α × List Nat))
    (f : α → List Nat) (l : List α) (rest : List Nat)
    (h : ∀ x ∈ l, ∀ r, dec (f x ++ r) = .ok (x, r)) :
    decodeMany dec l.length ((l.map f).flatten ++ rest) = .ok (l, rest) := by
  induction l with
  | nil => simp [decodeMany]
  | cons x xs ih =>
    simp only [List.map_cons, List.flatten_cons, List.length_cons, List.append_assoc]
    rw [decodeMany, h x (by simp) _, ok_bind]
    simp [ih fun y hy r => h y (by simp [hy]) r, ok_bind]

/-- Round trip over the whole universe: decoding the bytes produced by
    encoding a machine-representable value under the same `Config` yields the
    value back and consumes exactly its encoding. -/
theorem decodeFrom_encodeTo (t : Ty) :
    ∀ (ub : Nat) (config : Config) (v : Value t) (rest : List Nat),
      wf ub t v = true →
      decodeFrom ub config t (encodeTo config t v ++ rest) = .ok (v, rest) := by
  induction t with
  | uint w =>
    intro ub config v rest h
    simp only [wf, decide_eq_true_eq] at h
    simp [encodeTo, decodeFrom, decodeUInt_uintBytes config rest h]
  | bool =>
    intro ub config v rest _
    cases v
    · have hd := @decodeUInt_uintBytes config 1 0 rest (by norm_num)
      simp [encodeTo, decodeFrom, hd, ok_bind]
    · have hd := @decodeUInt_uintBytes config 1 1 rest (by norm_num)
      simp [encodeTo, decodeFrom, hd, ok_bind]
  | char =>
    intro ub config v rest h
    simp only [wf] at h
    have hlt : v < 2 ^ (8 * 4) := by
      have h2 := h
      simp [charFromU32] at h2
      exact Nat.lt_of_le_of_lt h2.1 (by norm_num)
    have hd := @decodeUInt_uintBytes config 4 v rest hlt
    simp [encodeTo, decodeFrom, hd, ok_bind, h]
  | option t ih =>
    intro ub config v rest h
    cases v with
    | none =>
      have hd := decodeUInt_cons config 0 rest
      simp [encodeTo, decodeFrom, uintBytes_one, hd, ok_bind]
    | some x =>
      simp only [wf] at h
      have hd := decodeUInt_cons config 1 (encodeTo config t x ++ rest)
      simp [encodeTo, decodeFrom, uintBytes_one, hd, ok_bind,
        ih ub config x rest h]
  | result t e iht ihe =>
    intro ub config v rest h
    cases v with
    | inl x =>
      simp only [wf] at h
      have hd := decodeUInt_cons config 0 (encodeTo config t x ++ rest)
      simp [encodeTo, decodeFrom, uintBytes_one, hd, ok_bind,
        iht ub config x rest h]
    | inr y =>
      simp only [wf] at h
      have hd := decodeUInt_cons config 1 (encodeTo config e y ++ rest)
      simp [encodeTo, decodeFrom, uintBytes_one, hd, ok_bind,
        ihe ub config y rest h]
  | pair a b iha ihb =>
    intro ub config v rest h
    obtain ⟨x, y⟩ := v
    simp only [wf, Bool.and_eq_true] at h
    simp [encodeTo, decodeFrom, List.append_assoc, ok_bind,
      iha ub config x (encodeTo config b y ++ rest) h.1,
      ihb ub config y rest h.2]
  | list t ih =>
    intro ub config l rest h
    simp only [wf, Bool.and_eq_true, decide_eq_true_eq, List.all_eq_true] at h
    obtain ⟨⟨h64, hub⟩, hall⟩ := h
    have hd := @decodeUInt_uintBytes config 8 l.length
      ((l.map (fun x => encodeTo config t x)).flatten ++ rest) (by norm_num; omega)
    have hmany := decodeMany_append (fun s => decodeFrom ub config t s)
      (fun x => encodeTo config t x) l rest
      (fun x hx r => ih ub config x r (hall x hx))
    simp [encodeTo, decodeFrom, List.append_assoc, hd, ok_bind, hmany, hub]
  | array n t ih =>
    intro ub config l rest h
    simp only [wf, Bool.and_eq_true, decide_eq_true_eq, List.all_eq_true] at h
    obtain ⟨hlen, hall⟩ := h
    have hmany := decodeMany_append (fun s => decodeFrom ub config t s)
      (fun x => encodeTo config t x) l rest
      (fun x hx r => ih ub config x r (hall x hx))
    rw [hlen] at hmany
    simp [encodeTo, decodeFrom, hmany, ok_bind, hlen]
  | map k v ihk ihv =>
    intro ub config l rest h
    simp only [wf, Bool.and_eq_true, decide_eq_true_eq, List.all_eq_true] at h
    obtain ⟨⟨h64, hub⟩, hall⟩ := h
    have hd := @decodeUInt_uintBytes config 8 l.length
      ((l.map (fun e => encodeTo config k e.1 ++ encodeTo config v e.2)).flatten ++ rest)
      (by norm_num; omega)
    have hmany := decodeMany_append
      (fun s => do
        let (a, s₁) ← decodeFrom ub config k s
        let (b, s₂) ← decodeFrom ub config v s₁
        (.ok ((a, b), s₂) : Except Error (Value (.pair k v) × List Nat)))
      (fun e => encodeTo config k e.1 ++ encodeTo config v e.2) l rest
      (fun e he r => by
        obtain ⟨a, b⟩ := e
        have h1 := hall _ he
        simp only [Bool.and_eq_true] at h1
        simp [List.append_assoc, ok_bind,
          ihk ub config a (encodeTo config v b ++ r) h1.1,
          ihv ub config b r h1.2])
    simp [encodeTo, decodeFrom, List.append_assoc, hd, ok_bind, hmany, hub]
  | varint =>
    intro ub config n rest h
    simp only [wf, decide_eq_true_eq] at h
    simp [encodeTo, decodeFrom, varIntDecode_encode n rest h]

theorem toLEBytes_zero (w : Nat) : toLEBytes w 0 = List.replicate w 0 := by
  induction w with
  | zero => rfl
  | succ w ih => simp [toLEBytes, ih, List.replicate_succ]

theorem uintBytes_zero (config : Config) (w : Nat) :
    uintBytes config w 0 = List.replicate w 0 := by
  cases config with
  | mk e => cases e <;> simp [uintBytes, toLEBytes_zero, List.reverse_replicate]

/-! Claim theorems. -/

/-- C1: for every type of the universe, every machine-representable value and
    every `Config`, decoding the bytes produced by encoding the value returns
    the value unchanged (consuming exactly the encoding, leaving any
    remaining stream untouched): `decode_from` after `encode_to` is the
    identity and no supported encoding is lossy.  `ub` is the platform
    `usize` width in bits; `wf` bounds each integer by its type's width and
    container lengths by `u64` and `usize`, which every in-memory Rust value
    satisfies. -/
theorem claim_C1_roundtrip (t : Ty) (ub : Nat) (config : Config) (v : Value t)
    (rest : List Nat) (h : wf ub t v = true) :
    decodeFrom ub config t (encodeTo config t v ++ rest) = .ok (v, rest) :=
  decodeFrom_encodeTo t ub config v rest h

theorem claim_C1_roundtrip_witness :
    wf 64 (.option (.uint 1)) (some 5) = true ∧
      decodeFrom 64 ⟨.littleEndian⟩ (.option (.uint 1))
        (encodeTo ⟨.littleEndian⟩ (.option (.uint 1)) (some 5) ++ []) =
        .ok (some 5, []) :=
  ⟨by decide,
    claim_C1_roundtrip (.option (.uint 1)) 64 ⟨.littleEndian⟩ (some 5) [] (by decide)⟩

/-- C2: for every type of the universe, every value and every `Config`, the
    number of bytes written by a successful `encode_to` equals `size`; the
    buffer returned by `encode` has length exactly `v.size()`. -/
theorem claim_C2_size_agreement (t : Ty) (config : Config) (v : Value t) :
    (encodeTo config t v).length = size t v :=
  encodeTo_length t config v

/-- C3 counterexample: a stream of 20 continuation bytes (one more than the
    19 seven-bit groups a `u128` can need) followed by a terminating byte
    `0x01` does NOT make `VarInt::decode_from` fail with a stream-corruption
    error, contradicting the claim: the source has no max-shift guard (and
    the error taxonomy has no corruption variant at all), so decoding
    succeeds, the wrapped shift (`140 % 256 % 128 = 12`) depositing the last
    byte at bit 12 and producing the garbage magnitude `4096`. -/
theorem claim_C3_counterexample :
    varIntDecode (List.replicate 20 128 ++ [1]) = .ok (4096, []) := by rfl

/-- C3 amended: `VarInt::decode_from` has no bounded max-shift guard.  On a
    stream consisting entirely of continuation bytes — however far beyond
    the maximal number of 7-bit groups of a `u128` — it never reports a
    corruption error: it consumes the whole stream and fails only with the
    end-of-stream IO error of the underlying byte read; and VarInt encoding
    never rejects any magnitude (it is total and always emits at least one
    byte). -/
theorem claim_C3_amended :
    (∀ (s : List Nat) (acc shift : Nat), (∀ b ∈ s, b &&& 128 ≠ 0) →
        varIntDecodeLoop acc shift s = .error .ioError) ∧
      ∀ n : Nat, varIntEncode n ≠ [] :=
  ⟨varIntDecodeLoop_continuation, varIntEncode_ne_nil⟩

theorem claim_C3_amended_witness :
    ((∀ b ∈ [128, 255], b &&& 128 ≠ 0) ∧
        varIntDecodeLoop 0 0 [128, 255] = .error .ioError) ∧
      varIntEncode 5 ≠ [] :=
  ⟨⟨by decide, claim_C3_amended.1 [128, 255] 0 0 (by decide)⟩,
    claim_C3_amended.2 5⟩

/-- C4: `VarInt::encode_to` implements base-128 continuation encoding:
    `encode(0) = [0x00]`, `encode(127) = [0x7F]`, `encode(128) = [0x80, 0x01]`,
    `size()` equals the number of emitted 7-bit groups for every magnitude,
    and decoding inverts encoding for every `u128` magnitude. -/
theorem claim_C4_varint_format :
    varIntEncode 0 = [0] ∧ varIntEncode 127 = [127] ∧
      varIntEncode 128 = [128, 1] ∧
      (∀ n : Nat, varIntSize n = (varIntEncode n).length) ∧
      ∀ (n : Nat) (rest : List Nat), n < 2 ^ 128 →
        varIntDecode (varIntEncode n ++ rest) = .ok (n, rest) := by
  have h1 : varIntEncode 1 = [1] := by
    rw [varIntEncode, dif_neg (by norm_num)]
  refine ⟨?_, ?_, ?_, fun n => (varIntEncode_length n).symm,
    fun n rest h => varIntDecode_encode n rest h⟩
  · rw [varIntEncode, dif_neg (by norm_num)]
  · rw [varIntEncode, dif_neg (by norm_num)]
  · rw [varIntEncode, dif_pos (by norm_num),
      show (128 : Nat) >>> 7 = 1 by decide, h1]
    decide

theorem claim_C4_varint_format_witness :
    300 < 2 ^ 128 ∧ varIntDecode (varIntEncode 300 ++ [9]) = .ok (300, [9]) :=
  ⟨by norm_num, claim_C4_varint_format.2.2.2.2 300 [9] (by norm_num)⟩

/-- C5: ZigZag is `(n << 1) XOR (n >> (bits - 1))` with arithmetic shift on
    encode and `(u >> 1) XOR -(u & 1)` on decode (these are the definitions
    `encodeZigzag`/`decodeZigzag`, taken from the source), and for every
    width `w ≥ 1` the pair is a bijection on the full `w`-bit signed range:
    decode inverts encode on every two's-complement pattern `x < 2 ^ w` and
    encode stays inside the range.  On `i8` (patterns: `-1 = 255`,
    `-2 = 254`), the values `0, -1, 1, -2, 2` map to `0, 1, 2, 3, 4`. -/
theorem claim_C5_zigzag :
    (∀ w x : Nat, 1 ≤ w → x < 2 ^ w →
        decodeZigzag w (encodeZigzag w x) = x ∧ encodeZigzag w x < 2 ^ w) ∧
      encodeZigzag 8 0 = 0 ∧ encodeZigzag 8 255 = 1 ∧ encodeZigzag 8 1 = 2 ∧
        encodeZigzag 8 254 = 3 ∧ encodeZigzag 8 2 = 4 :=
  ⟨fun w x hw hx => zigzag_roundtrip w x hw hx, by decide, by decide, by decide,
    by decide, by decide⟩

theorem claim_C5_zigzag_witness :
    1 ≤ 8 ∧ 255 < 2 ^ 8 ∧
      decodeZigzag 8 (encodeZigzag 8 255) = 255 ∧ encodeZigzag 8 255 < 2 ^ 8 :=
  ⟨by norm_num, by norm_num,
    (claim_C5_zigzag.1 8 255 (by norm_num) (by norm_num)).1,
    (claim_C5_zigzag.1 8 255 (by norm_num) (by norm_num)).2⟩

/-- C6: for every element type and every `Config`, encoding `None` yields
    exactly the single byte `0x00` and encoding `Some x` yields exactly the
    byte `0x01` followed by the encoding of `x`. -/
theorem claim_C6_option_encoding (config : Config) (t : Ty) (x : Value t) :
    encodeTo config (.option t) none = [0] ∧
      encodeTo config (.option t) (some x) = 1 :: encodeTo config t x := by
  constructor <;> simp [encodeTo, uintBytes_one]

/-- C7: decoding an `Option` or a `Result` from a stream whose first byte is
    neither 0 nor 1 fails with `InvalidEnumVariant` carrying that byte as
    the raw tag (and no panic occurs: the decoder returns an error value). -/
theorem claim_C7_invalid_tag (ub : Nat) (config : Config) (t e : Ty) (b : Nat)
    (rest : List Nat) (h1 : 1 < b) (h2 : b < 256) :
    decodeFrom ub config (.option t) (b :: rest) =
        .error (.invalidEnumVariant b) ∧
      decodeFrom ub config (.result t e) (b :: rest) =
        .error (.invalidEnumVariant b) := by
  obtain ⟨m, rfl⟩ : ∃ m, b = m + 2 := ⟨b - 2, by omega⟩
  have hd := decodeUInt_cons config (m + 2) rest
  constructor <;> simp [decodeFrom, hd, ok_bind]

theorem claim_C7_invalid_tag_witness :
    1 < 2 ∧ 2 < 256 ∧
      decodeFrom 64 ⟨.littleEndian⟩ (.option (.uint 1)) [2, 7] =
        .error (.invalidEnumVariant 2) :=
  ⟨by norm_num, by norm_num,
    (claim_C7_invalid_tag 64 ⟨.littleEndian⟩ (.uint 1) (.uint 1) 2 [7]
      (by norm_num) (by norm_num)).1⟩

/-- C8: when the decoded `u64` length of a length-prefixed sequence or map
    container does not fit the platform index type (`ub`-bit `usize`),
    decoding fails with `InvalidLength` carrying that count, and it does so
    for every continuation of the stream — the error depends only on the
    8-byte length and is raised before any element is decoded (and before
    the container is allocated). -/
theorem claim_C8_length_overflow (ub : Nat) (config : Config) (t k v : Ty)
    (len : Nat) (rest : List Nat) (h64 : len < 2 ^ 64) (hub : 2 ^ ub ≤ len) :
    decodeFrom ub config (.list t) (uintBytes config 8 len ++ rest) =
        .error (.invalidLength len) ∧
      decodeFrom ub config (.map k v) (uintBytes config 8 len ++ rest) =
        .error (.invalidLength len) := by
  have hd := @decodeUInt_uintBytes config 8 len rest
    (by norm_num; omega)
  have hnot : ¬ len < 2 ^ ub := by omega
  constructor <;> simp [decodeFrom, hd, ok_bind, hnot]

theorem claim_C8_length_overflow_witness :
    (4294967296 : Nat) < 2 ^ 64 ∧ 2 ^ 32 ≤ (4294967296 : Nat) ∧
      decodeFrom 32 ⟨.littleEndian⟩ (.list (.uint 1))
        (uintBytes ⟨.littleEndian⟩ 8 4294967296 ++ []) =
        .error (.invalidLength 4294967296) :=
  ⟨by norm_num, by norm_num,
    (claim_C8_length_overflow 32 ⟨.littleEndian⟩ (.uint 1) (.uint 1) (.uint 1)
      4294967296 [] (by norm_num) (by norm_num)).1⟩

/-- C9: for every non-zero-constrained integer width and every `Config`,
    decoding a stream whose underlying integer decodes to zero (a zero byte
    for each of the `w` bytes of the underlying type) is rejected with the
    `NonZeroError` variant of the crate's error taxonomy — the `Error` type
    of this file, whose other variants are `ioError`, `invalidChar`,
    `invalidEnumVariant`, `invalidLength`, `invalidUtf8String`,
    `partiallyFilledArray` and the integer-conversion-overflow error
    `intConversionError`. -/
theorem claim_C9_nonzero (config : Config) (w : Nat) (rest : List Nat) :
    nonZeroDecodeFrom config w (List.replicate w 0 ++ rest) =
      .error .nonZeroError := by
  have hd := @decodeUInt_uintBytes config w 0 rest
    (Nat.pos_pow_of_pos _ (by norm_num))
  rw [uintBytes_zero] at hd
  simp [nonZeroDecodeFrom, hd, ok_bind]

/-- C10: decoding a `bool` consumes exactly one byte and is total over that
    byte's value: it never fails and never returns `InvalidEnumVariant`;
    byte 0 decodes to `false` and every nonzero byte — not only 1 — decodes
    to `true`, so streams no bool encoding produces are still accepted. -/
theorem claim_C10_bool_decode (ub : Nat) (config : Config) (b : Nat)
    (rest : List Nat) (h : b < 256) :
    decodeFrom ub config .bool (b :: rest) = .ok (b != 0, rest) := by
  have hd := decodeUInt_cons config b rest
  simp [decodeFrom, hd, ok_bind]

theorem claim_C10_bool_decode_witness :
    (2 : Nat) < 256 ∧
      decodeFrom 64 ⟨.littleEndian⟩ .bool [2, 9] = .ok (true, [9]) :=
  ⟨by norm_num, by simpa using claim_C10_bool_decode 64 ⟨.littleEndian⟩ 2 [9] (by norm_num)⟩

end Nimble
